import Mathlib

/-!
# Verification of the crcmod CRC engine

A shallow embedding of `src/crcmod/crcmod.py`: polynomial validation
(`_verifyPoly`), bit reversal (`_bitrev`), per-byte step functions
(`_bytecrc`, `_bytecrc_r`), table construction (`_mkTable`, `_mkTable_r`),
and the stateful `Crc` engine (`__init__`/`_mkCrcFun`, `update`, `digest`,
`hexdigest`, `new`).  Machine integers are modelled as `Nat` (the Python
source uses arbitrary-precision integers and masks explicitly); the one
`Int`-valued function is `_bitrev`, whose Python source accepts any integer
and uses two's-complement `&`/`>>` semantics, which for the low bit and a
halving shift coincide with Euclidean `% 2` and `/ 2` on `Int`.

The low-level block-update functions (`_crcfunpy._crc8` .. `_crc64r`) are
imported by `crcmod.py` but are not part of this repository's sources;
they are modelled from the spec (§4.5) below, marked as such.
-/

namespace Crcmod

/-- The widths accepted by `_verifyPoly`, in the order tested there. -/
def widths : List Nat := [8, 16, 24, 32, 64]

/-- Embeds `_verifyPoly`: return the first `n` in `(8,16,24,32,64)` with
`2^n ≤ poly < 2^(n+1)`; `none` models the `ValueError` raised otherwise. -/
def verifyPoly (poly : Nat) : Option Nat :=
  widths.find? fun n => decide (2 ^ n ≤ poly) && decide (poly < 2 ^ (n + 1))

/-- The loop of `_bitrev`: `y = (y << 1) | (x & 1); x = x >> 1`, `n` times.
Python's `x & 1` on any integer is `x % 2` (Euclidean) and `x >> 1` is the
floor shift, i.e. Euclidean division by 2. -/
def bitrevAux : Int → Nat → Nat → Nat
  | _, y, 0 => y
  | x, y, n + 1 => bitrevAux (x / 2) (2 * y + (x % 2).toNat) n

/-- Embeds `_bitrev`: reverse the low `n` bits of `x`. -/
def bitrev (x : Int) (n : Nat) : Nat := bitrevAux x 0 n

/-- The loop body of `_bytecrc`: `if crc & (1 << (n-1)): crc = (crc << 1) ^ poly
else: crc = crc << 1`. -/
def bytecrcRound (poly n crc : Nat) : Nat :=
  if crc &&& (1 <<< (n - 1)) ≠ 0 then (crc <<< 1) ^^^ poly else crc <<< 1

/-- Embeds `_bytecrc`: eight forward rounds, then mask to `n` bits. -/
def bytecrc (crc poly n : Nat) : Nat :=
  ((bytecrcRound poly n)^[8] crc) &&& (2 ^ n - 1)

/-- The loop body of `_bytecrc_r`: `if crc & 1: crc = (crc >> 1) ^ poly
else: crc = crc >> 1`. -/
def bytecrcRound_r (poly crc : Nat) : Nat :=
  if crc &&& 1 ≠ 0 then (crc >>> 1) ^^^ poly else crc >>> 1

/-- Embeds `_bytecrc_r`: eight reversed rounds, then mask to `n` bits. -/
def bytecrc_r (crc poly n : Nat) : Nat :=
  ((bytecrcRound_r poly)^[8] crc) &&& (2 ^ n - 1)

/-- Embeds `_mkTable`: forward 256-entry table. -/
def mkTable (poly n : Nat) : List Nat :=
  (List.range 256).map fun i => bytecrc (i <<< (n - 8)) (poly &&& (2 ^ n - 1)) n

/-- Embeds `_mkTable_r`: bit-reversed 256-entry table. -/
def mkTable_r (poly n : Nat) : List Nat :=
  (List.range 256).map fun i => bytecrc_r i (bitrev (↑(poly &&& (2 ^ n - 1))) n) n

/-- Modelled from the spec: the forward per-byte block-update step of the
low-level CRC functions (`_crcfunpy`/`_crcfunext`, imported by `crcmod.py`
but absent from this repository's sources).  Spec §4.5: for each byte `b`,
`crc = table[b XOR (crc >> (width-8))] XOR (crc << 8)`, masked to `width`
bits after each step. -/
def fwdStep (w : Nat) (table : List Nat) (crc b : Nat) : Nat :=
  ((table.getD (b ^^^ (crc >>> (w - 8))) 0) ^^^ (crc <<< 8)) &&& (2 ^ w - 1)

/-- Modelled from the spec: the reversed per-byte block-update step of the
low-level CRC functions (absent from this repository's sources).  Spec §4.5:
for each byte `b`, `crc = table[b XOR (crc & 0xFF)] XOR (crc >> 8)`. -/
def revStep (table : List Nat) (crc b : Nat) : Nat :=
  (table.getD (b ^^^ (crc &&& 0xFF)) 0) ^^^ (crc >>> 8)

/-- Modelled from the spec: the byte-at-a-time block update of §4.5, folding
the per-byte step over the data. -/
def blockUpdate (step : Nat → Nat → Nat) (crc : Nat) (data : List Nat) : Nat :=
  data.foldl step crc

/-- The fields of a `Crc` instance as set by `Crc.__init__`. -/
structure Crc where
  poly : Nat
  width : Nat
  digest_size : Nat
  initCrc : Nat
  xorOut : Nat
  table : List Nat
  reverse : Bool
  crcValue : Nat
deriving Repr, DecidableEq

/-- The per-byte step function the engine's `_crc` closure folds over the
data, selected by direction as in `_mkCrcFun`. -/
def Crc.step (c : Crc) : Nat → Nat → Nat :=
  if c.reverse then revStep c.table else fwdStep c.width c.table

/-- Embeds `Crc.__init__`/`_mkCrcFun` after `_verifyPoly` has returned `width`:
mask `initCrc` and `xorOut` to `width` bits, build the table for the chosen
direction, and start `crcValue` at `initCrc ^ xorOut`. -/
def mkCrcRaw (poly width initCrc : Nat) (rev : Bool) (xorOut : Nat) : Crc :=
  let mask := 2 ^ width - 1
  { poly := poly
    width := width
    digest_size := width / 8
    initCrc := initCrc &&& mask
    xorOut := xorOut &&& mask
    table := if rev then mkTable_r poly width else mkTable poly width
    reverse := rev
    crcValue := (initCrc &&& mask) ^^^ (xorOut &&& mask) }

/-- Embeds `Crc` construction: `_verifyPoly` then `__init__`; `none` models the
`ValueError` (invalid polynomial) escaping the constructor. -/
def mkCrc (poly initCrc : Nat) (rev : Bool) (xorOut : Nat) : Option Crc :=
  (verifyPoly poly).map fun w => mkCrcRaw poly w initCrc rev xorOut

/-- Embeds `Crc.update`:
`self.crcValue = self.xorOut ^ self._crc(data, self.xorOut ^ self.crcValue)`. -/
def Crc.update (c : Crc) (data : List Nat) : Crc :=
  { c with crcValue := c.xorOut ^^^ blockUpdate c.step (c.xorOut ^^^ c.crcValue) data }

/-- A sequence of `update` calls. -/
def Crc.updates (c : Crc) (ds : List (List Nat)) : Crc :=
  ds.foldl Crc.update c

/-- The byte-collection loop shared by `Crc.digest` and `Crc.hexdigest`:
take `crc & 0xFF`, shift right by 8, repeat; little-endian order. -/
def digestBytes (crc : Nat) : Nat → List Nat
  | 0 => []
  | k + 1 => (crc &&& 0xFF) :: digestBytes (crc >>> 8) k

/-- Embeds `Crc.digest`: the collected bytes, reversed into big-endian order. -/
def Crc.digest (c : Crc) : List Nat :=
  (digestBytes c.crcValue c.digest_size).reverse

/-- One uppercase hexadecimal digit, as produced by Python's `'%02X'`. -/
def hexChar (k : Nat) : Char :=
  if k < 10 then Char.ofNat (48 + k) else Char.ofNat (55 + k)

/-- Formats a byte `b < 256` as Python's `'%02X' % b`: two uppercase hex characters. -/
def byteHex (b : Nat) : List Char :=
  [hexChar (b / 16), hexChar (b % 16)]

/-- The loop of `Crc.hexdigest`: format `crc & 0xFF`, shift right by 8. -/
def hexdigestChunks (crc : Nat) : Nat → List (List Char)
  | 0 => []
  | k + 1 => byteHex (crc &&& 0xFF) :: hexdigestChunks (crc >>> 8) k

/-- Embeds `Crc.hexdigest`: the two-character chunks, reversed and joined. -/
def Crc.hexdigest (c : Crc) : List Char :=
  (hexdigestChunks c.crcValue c.digest_size).reverse.flatten

/-- Embeds `Crc.new`: a fresh engine with the same parameters and table, with
`crcValue` reset to `initCrc ^ xorOut`; an optional seed is passed to
`update` before returning. -/
def Crc.new (c : Crc) (arg : Option (List Nat)) : Crc :=
  let n : Crc := { c with crcValue := c.initCrc ^^^ c.xorOut }
  match arg with
  | none => n
  | some seed => n.update seed

/-! ## Spec-side restatements used for the refinement claims -/

/-- The forward table-building round exactly as the spec words it: shift
left by 1, XOR with the stripped polynomial when the bit shifted past
position `n-1` was 1. -/
def specFwdRound (poly n crc : Nat) : Nat :=
  let sh := crc <<< 1
  if sh.testBit n then sh ^^^ poly else sh

/-- The forward table as the spec words it: entry `i` is 8 rounds applied
to `i << (n-8)`, masked to `n` bits, using the `n`-bit-masked polynomial. -/
def specFwdTable (poly n : Nat) : List Nat :=
  (List.range 256).map fun i => ((specFwdRound (poly % 2 ^ n) n)^[8] (i <<< (n - 8))) % 2 ^ n

/-- The reversed table-building round exactly as the spec words it: shift
right by 1, XOR with the bit-reversed stripped polynomial when the bit
shifted out was 1. -/
def specRevRound (rpoly crc : Nat) : Nat :=
  if crc % 2 = 1 then (crc >>> 1) ^^^ rpoly else crc >>> 1

/-- The reversed table as the spec words it: entry `i` is 8 reversed rounds
applied to `i`, masked to `n` bits, using the polynomial masked to `n` bits
and then bit-reversed over `n` bits. -/
def specRevTable (poly n : Nat) : List Nat :=
  (List.range 256).map fun i => ((specRevRound (bitrev (↑(poly % 2 ^ n)) n))^[8] i) % 2 ^ n

/-- Two's-complement bit `k` of an integer: Python's `(x >> k) & 1 == 1`. -/
def intBit (x : Int) : Nat → Bool
  | 0 => decide (x % 2 = 1)
  | k + 1 => intBit (x / 2) k

/-- Big-endian byte-sequence decoding. -/
def fromBytesBE (l : List Nat) : Nat :=
  l.foldl (fun acc b => 256 * acc + b) 0

/-- Numeric value of an uppercase hexadecimal character. -/
def hexVal (ch : Char) : Nat :=
  if ch.toNat ≤ 57 then ch.toNat - 48 else ch.toNat - 55

/-- Decode a hexadecimal string two characters per byte, big-endian within
each pair. -/
def decodeHexPairs : List Char → List Nat
  | a :: b :: rest => (16 * hexVal a + hexVal b) :: decodeHexPairs rest
  | _ => []

/-- The sixteen uppercase hexadecimal digits. -/
def hexDigits : List Char :=
  ['0', '1', '2', '3', '4', '5', '6', '7', '8', '9', 'A', 'B', 'C', 'D', 'E', 'F']

/-! ## Basic helper lemmas -/

theorem two_pow_sub_one_lt (n : Nat) : 2 ^ n - 1 < 2 ^ n :=
  Nat.sub_lt (Nat.two_pow_pos n) Nat.one_pos

theorem and_mask_lt (x n : Nat) : x &&& (2 ^ n - 1) < 2 ^ n :=
  Nat.and_lt_two_pow x (two_pow_sub_one_lt n)

theorem and_255_eq_mod (x : Nat) : x &&& 0xFF = x % 256 := by
  have h : (0xFF : Nat) = 2 ^ 8 - 1 := by norm_num
  rw [h, Nat.and_pow_two_sub_one_eq_mod]

theorem shiftRight_le (x k : Nat) : x >>> k ≤ x := by
  rw [Nat.shiftRight_eq_div_pow]
  exact Nat.div_le_self _ _

theorem getD_lt {l : List Nat} {m : Nat} (hm : 0 < m) (h : ∀ t ∈ l, t < m) (i : Nat) :
    l.getD i 0 < m := by
  rw [List.getD_eq_getElem?_getD]
  cases hg : l[i]? with
  | none => simpa using hm
  | some a => simpa using h a (List.getElem?_mem hg)

theorem xor_xor_cancel (x y : Nat) : x ^^^ (x ^^^ y) = y := by
  rw [← Nat.xor_assoc, Nat.xor_self, Nat.zero_xor]

/-! ## Bit reversal -/

theorem bitrevAux_eq (n : Nat) : ∀ (x : Int) (y : Nat),
    bitrevAux x y n = y * 2 ^ n + bitrevAux x 0 n := by
  induction n with
  | zero => intro x y; simp [bitrevAux]
  | succ n ih =>
    intro x y
    show bitrevAux (x / 2) (2 * y + (x % 2).toNat) n
        = y * 2 ^ (n + 1) + bitrevAux (x / 2) (2 * 0 + (x % 2).toNat) n
    rw [ih (x / 2) (2 * y + (x % 2).toNat), ih (x / 2) (2 * 0 + (x % 2).toNat)]
    ring

theorem bitrev_succ (x : Int) (n : Nat) :
    bitrev x (n + 1) = (x % 2).toNat * 2 ^ n + bitrev (x / 2) n := by
  show bitrevAux (x / 2) (2 * 0 + (x % 2).toNat) n = _
  rw [bitrevAux_eq n (x / 2) (2 * 0 + (x % 2).toNat)]
  simp [bitrev]

theorem bitrev_lt (x : Int) (n : Nat) : bitrev x n < 2 ^ n := by
  induction n generalizing x with
  | zero => simp [bitrev, bitrevAux]
  | succ n ih =>
    have h2 := ih (x / 2)
    rw [bitrev_succ]
    rcases Int.emod_two_eq x with h | h
    · rw [h]
      simp only [Int.toNat_zero, Nat.zero_mul, Nat.zero_add]
      calc bitrev (x / 2) n < 2 ^ n := h2
        _ ≤ 2 ^ (n + 1) := Nat.pow_le_pow_right (by norm_num) (Nat.le_succ n)
    · rw [h]
      simp only [Int.toNat_one, Nat.one_mul]
      have : 2 ^ (n + 1) = 2 ^ n + 2 ^ n := by ring
      omega

theorem bitrev_testBit (x : Int) (n : Nat) :
    ∀ i, i < n → (bitrev x n).testBit i = intBit x (n - 1 - i) := by
  induction n generalizing x with
  | zero => intro i hi; exact absurd hi (Nat.not_lt_zero i)
  | succ n ih =>
    intro i hi
    rw [bitrev_succ]
    have hR : bitrev (x / 2) n < 2 ^ n := bitrev_lt _ _
    rcases Nat.lt_or_ge i n with h | h
    · have hmod : ((x % 2).toNat * 2 ^ n + bitrev (x / 2) n) % 2 ^ n = bitrev (x / 2) n := by
        rw [Nat.add_comm, Nat.add_mul_mod_self_right, Nat.mod_eq_of_lt hR]
      have key : ((x % 2).toNat * 2 ^ n + bitrev (x / 2) n).testBit i
          = (bitrev (x / 2) n).testBit i := by
        conv_rhs => rw [← hmod]
        rw [Nat.testBit_mod_two_pow]
        simp [h]
      rw [key, ih (x / 2) i h]
      have harith : n + 1 - 1 - i = (n - 1 - i) + 1 := by omega
      rw [harith]
      rfl
    · have hi' : i = n := by omega
      subst hi'
      rw [Nat.mul_comm, Nat.testBit_mul_two_pow_add_eq, Nat.testBit_lt_two_pow hR]
      simp only [Bool.xor_false]
      have harith : i + 1 - 1 - i = 0 := by omega
      rw [harith]
      show decide ((x % 2).toNat % 2 = 1) = decide (x % 2 = 1)
      rcases Int.emod_two_eq x with h | h <;> simp [h]

/-- On a natural number, the two's-complement bit reading used for `_bitrev`
agrees with `Nat.testBit`. -/
theorem intBit_natCast (k : Nat) : ∀ m : Nat, intBit (↑m) k = m.testBit k := by
  induction k with
  | zero =>
    intro m
    show decide ((m : Int) % 2 = 1) = m.testBit 0
    rw [Nat.testBit_zero, decide_eq_decide]
    omega
  | succ k ih =>
    intro m
    show intBit ((m : Int) / 2) k = m.testBit (k + 1)
    rw [Nat.testBit_add_one]
    have hcast : ((m : Int) / 2) = ((m / 2 : Nat) : Int) := (Int.ofNat_ediv m 2).symm
    rw [hcast, ih]

/-- C6: for every integer `x` and every `n ≥ 0`, `_bitrev` returns a value
`y` with `0 ≤ y < 2^n` whose bit `i` equals bit `n-1-i` of `x` (in Python's
two's-complement reading) for each `0 ≤ i < n`; as a Lean function it is
pure by construction. -/
theorem crcmod_C6 (x : Int) (n : Nat) :
    bitrev x n < 2 ^ n ∧ ∀ i, i < n → (bitrev x n).testBit i = intBit x (n - 1 - i) :=
  ⟨bitrev_lt x n, bitrev_testBit x n⟩

/-- Witness for C6 at `x = 5`, `n = 3`, `i = 0`. -/
theorem crcmod_C6_witness :
    bitrev 5 3 < 2 ^ 3 ∧ (bitrev 5 3).testBit 0 = intBit 5 2 :=
  ⟨(crcmod_C6 5 3).1, (crcmod_C6 5 3).2 0 (by decide)⟩

/-! ## Polynomial validation -/

theorem verifyPoly_eq_none_iff (poly : Nat) :
    verifyPoly poly = none ↔ ∀ w ∈ widths, ¬ (2 ^ w ≤ poly ∧ poly < 2 ^ (w + 1)) := by
  rw [verifyPoly, List.find?_eq_none]
  constructor
  · intro h w hw hc
    have := h w hw
    simp [hc.1, hc.2] at this
  · intro h w hw
    simp only [Bool.and_eq_true, decide_eq_true_eq]
    exact fun hc => h w hw hc

theorem verifyPoly_eq_some {poly w : Nat} (h : verifyPoly poly = some w) :
    w ∈ widths ∧ 2 ^ w ≤ poly ∧ poly < 2 ^ (w + 1) := by
  have hm := List.mem_of_find?_eq_some h
  have hp := List.find?_some h
  simp only [Bool.and_eq_true, decide_eq_true_eq] at hp
  exact ⟨hm, hp.1, hp.2⟩

/-- Two widths whose ranges both contain `poly` are equal (the intervals
`[2^w, 2^(w+1))` are pairwise disjoint). -/
theorem width_unique {poly w w' : Nat} (h1 : 2 ^ w ≤ poly) (h2 : poly < 2 ^ (w + 1))
    (h3 : 2 ^ w' ≤ poly) (h4 : poly < 2 ^ (w' + 1)) : w = w' := by
  by_contra hne
  rcases Nat.lt_or_ge w w' with h | h
  · have : 2 ^ (w + 1) ≤ 2 ^ w' := Nat.pow_le_pow_right (by norm_num) h
    omega
  · have hlt : w' < w := by omega
    have : 2 ^ (w' + 1) ≤ 2 ^ w := Nat.pow_le_pow_right (by norm_num) hlt
    omega

/-- Arithmetic facts about a validated width. -/
theorem width_facts {poly w : Nat} (h : verifyPoly poly = some w) :
    8 * (w / 8) = w ∧ w / 8 = (w + 7) / 8 ∧ 1 ≤ w := by
  have hw := (verifyPoly_eq_some h).1
  simp only [widths, List.mem_cons, List.not_mem_nil, or_false] at hw
  omega

/-- C2: engine construction fails (models the `ValueError` from
`_verifyPoly`) if and only if no supported width fits the polynomial; on
success the engine's width is the unique fitting width. -/
theorem crcmod_C2 (poly initCrc xorOut : Nat) (rev : Bool) :
    (mkCrc poly initCrc rev xorOut = none ↔
      ¬ ∃ w, w ∈ widths ∧ 2 ^ w ≤ poly ∧ poly < 2 ^ (w + 1)) ∧
    ∀ c, mkCrc poly initCrc rev xorOut = some c →
      c.width ∈ widths ∧ 2 ^ c.width ≤ poly ∧ poly < 2 ^ (c.width + 1) ∧
      ∀ w, w ∈ widths → 2 ^ w ≤ poly → poly < 2 ^ (w + 1) → w = c.width := by
  constructor
  · rw [mkCrc, Option.map_eq_none', verifyPoly_eq_none_iff]
    constructor
    · rintro h ⟨w, hw, h1, h2⟩
      exact h w hw ⟨h1, h2⟩
    · intro h w hw hc
      exact h ⟨w, hw, hc.1, hc.2⟩
  · intro c hc
    rcases hvv : verifyPoly poly with _ | w'
    · rw [mkCrc, hvv] at hc
      simp at hc
    · rw [mkCrc, hvv, Option.map_some'] at hc
      have hw := verifyPoly_eq_some hvv
      have hcw : c = mkCrcRaw poly w' initCrc rev xorOut := by
        exact (Option.some.injEq _ _).mp hc.symm
      have hwidth : c.width = w' := by rw [hcw]; rfl
      rw [hwidth]
      exact ⟨hw.1, hw.2.1, hw.2.2,
        fun w hmem hle hlt => width_unique hle hlt hw.2.1 hw.2.2⟩

/-- Witness for C2 at `poly = 0x107`. -/
theorem crcmod_C2_witness :
    (mkCrcRaw 263 8 0 true 0).width ∈ widths ∧
    2 ^ (mkCrcRaw 263 8 0 true 0).width ≤ 263 ∧
    263 < 2 ^ ((mkCrcRaw 263 8 0 true 0).width + 1) ∧
    ∀ w, w ∈ widths → 2 ^ w ≤ 263 → 263 < 2 ^ (w + 1) →
      w = (mkCrcRaw 263 8 0 true 0).width :=
  (crcmod_C2 263 0 0 true).2 (mkCrcRaw 263 8 0 true 0) rfl

/-! ## Incremental update consistency -/

theorem Crc.update_update (c : Crc) (a b : List Nat) :
    (c.update a).update b = c.update (a ++ b) := by
  cases c with
  | mk p w d i x t r v =>
    simp only [Crc.update, Crc.step, blockUpdate, List.foldl_append, Crc.mk.injEq,
      true_and, and_true]
    rw [xor_xor_cancel]

/-- C3: on a fresh validly constructed engine, `update a; update b` leaves
exactly the same engine state (hence the same `currentValue` and
`digest()`) as a single `update (a ++ b)`. -/
theorem crcmod_C3 (poly w initCrc xorOut : Nat) (rev : Bool) (a b : List Nat)
    (h : verifyPoly poly = some w) :
    ((mkCrcRaw poly w initCrc rev xorOut).update a).update b =
      (mkCrcRaw poly w initCrc rev xorOut).update (a ++ b) :=
  Crc.update_update _ a b

/-- Witness for C3 at `poly = 0x107`, `a = [1]`, `b = [2]`. -/
theorem crcmod_C3_witness :
    ((mkCrcRaw 263 8 0 true 0).update [1]).update [2] =
      (mkCrcRaw 263 8 0 true 0).update ([1] ++ [2]) :=
  crcmod_C3 263 8 0 0 true [1] [2] rfl

/-! ## The engine invariant -/

/-- The representation invariant of a width-`w` engine. -/
structure Crc.Inv (c : Crc) (w : Nat) : Prop where
  width_eq : c.width = w
  dsize_eq : c.digest_size = w / 8
  table_len : c.table.length = 256
  table_lt : ∀ t ∈ c.table, t < 2 ^ w
  init_lt : c.initCrc < 2 ^ w
  xorOut_lt : c.xorOut < 2 ^ w
  value_lt : c.crcValue < 2 ^ w

theorem mkTable_length (poly n : Nat) : (mkTable poly n).length = 256 := by
  simp [mkTable]

theorem mkTable_r_length (poly n : Nat) : (mkTable_r poly n).length = 256 := by
  simp [mkTable_r]

theorem mkTable_mem_lt (poly n : Nat) : ∀ t ∈ mkTable poly n, t < 2 ^ n := by
  intro t ht
  simp only [mkTable, List.mem_map] at ht
  obtain ⟨i, _, rfl⟩ := ht
  exact and_mask_lt _ n

theorem mkTable_r_mem_lt (poly n : Nat) : ∀ t ∈ mkTable_r poly n, t < 2 ^ n := by
  intro t ht
  simp only [mkTable_r, List.mem_map] at ht
  obtain ⟨i, _, rfl⟩ := ht
  exact and_mask_lt _ n

theorem fwdStep_lt (w : Nat) (table : List Nat) (crc b : Nat) :
    fwdStep w table crc b < 2 ^ w :=
  and_mask_lt _ w

theorem revStep_lt {w : Nat} {table : List Nat} (ht : ∀ t ∈ table, t < 2 ^ w)
    {crc : Nat} (hc : crc < 2 ^ w) (b : Nat) : revStep table crc b < 2 ^ w := by
  have h1 : table.getD (b ^^^ (crc &&& 0xFF)) 0 < 2 ^ w := getD_lt (Nat.two_pow_pos w) ht _
  have h2 : crc >>> 8 < 2 ^ w := Nat.lt_of_le_of_lt (shiftRight_le crc 8) hc
  exact Nat.xor_lt_two_pow h1 h2

theorem blockUpdate_lt {w : Nat} {step : Nat → Nat → Nat}
    (hstep : ∀ crc b, crc < 2 ^ w → step crc b < 2 ^ w)
    {crc : Nat} (hc : crc < 2 ^ w) (data : List Nat) :
    blockUpdate step crc data < 2 ^ w := by
  induction data generalizing crc with
  | nil => exact hc
  | cons d ds ih => exact ih (hstep crc d hc)

theorem Crc.step_lt {c : Crc} {w : Nat} (hw : c.width = w) (ht : ∀ t ∈ c.table, t < 2 ^ w)
    {crc : Nat} (hc : crc < 2 ^ w) (b : Nat) : c.step crc b < 2 ^ w := by
  by_cases hr : c.reverse
  · simp only [Crc.step, hr, if_true]
    exact revStep_lt ht hc b
  · simp only [Crc.step, hr, if_false]
    rw [hw]
    exact fwdStep_lt w c.table crc b

theorem Crc.update_inv {c : Crc} {w : Nat} (h : c.Inv w) (data : List Nat) :
    (c.update data).Inv w := by
  refine ⟨h.width_eq, h.dsize_eq, h.table_len, h.table_lt, h.init_lt, h.xorOut_lt, ?_⟩
  exact Nat.xor_lt_two_pow h.xorOut_lt
    (blockUpdate_lt (fun crc b hc => Crc.step_lt h.width_eq h.table_lt hc b)
      (Nat.xor_lt_two_pow h.xorOut_lt h.value_lt) data)

theorem Crc.updates_inv {c : Crc} {w : Nat} (h : c.Inv w) (ds : List (List Nat)) :
    (c.updates ds).Inv w := by
  induction ds generalizing c with
  | nil => exact h
  | cons d ds ih => exact ih (Crc.update_inv h d)

theorem mkCrcRaw_inv (poly w initCrc xorOut : Nat) (rev : Bool) :
    (mkCrcRaw poly w initCrc rev xorOut).Inv w := by
  refine ⟨rfl, rfl, ?_, ?_, and_mask_lt _ _, and_mask_lt _ _,
    Nat.xor_lt_two_pow (and_mask_lt _ _) (and_mask_lt _ _)⟩
  · cases rev
    · exact mkTable_length poly w
    · exact mkTable_r_length poly w
  · cases rev
    · exact mkTable_mem_lt poly w
    · exact mkTable_r_mem_lt poly w

/-- C4: for a validly constructed engine, after construction and any
sequence of `update` calls, the table has exactly 256 entries, every entry
fits in `w` bits, and `crcValue` fits in `w` bits. -/
theorem crcmod_C4 (poly w initCrc xorOut : Nat) (rev : Bool) (ds : List (List Nat))
    (h : verifyPoly poly = some w) :
    ((mkCrcRaw poly w initCrc rev xorOut).updates ds).table.length = 256 ∧
    (∀ t ∈ ((mkCrcRaw poly w initCrc rev xorOut).updates ds).table, t < 2 ^ w) ∧
    ((mkCrcRaw poly w initCrc rev xorOut).updates ds).crcValue < 2 ^ w := by
  have hi := Crc.updates_inv (mkCrcRaw_inv poly w initCrc xorOut rev) ds
  exact ⟨hi.table_len, hi.table_lt, hi.value_lt⟩

/-- Witness for C4 at `poly = 0x107` after one update. -/
theorem crcmod_C4_witness :
    ((mkCrcRaw 263 8 0 true 0).updates [[1, 2]]).table.length = 256 ∧
    (∀ t ∈ ((mkCrcRaw 263 8 0 true 0).updates [[1, 2]]).table, t < 2 ^ 8) ∧
    ((mkCrcRaw 263 8 0 true 0).updates [[1, 2]]).crcValue < 2 ^ 8 :=
  crcmod_C4 263 8 0 0 true [[1, 2]] rfl

/-! ## Digest -/

theorem digestBytes_length (crc k : Nat) : (digestBytes crc k).length = k := by
  induction k generalizing crc with
  | zero => rfl
  | succ k ih => simp [digestBytes, ih]

theorem digestBytes_lt (crc k : Nat) : ∀ b ∈ digestBytes crc k, b < 256 := by
  induction k generalizing crc with
  | zero => intro b hb; simp [digestBytes] at hb
  | succ k ih =>
    intro b hb
    simp only [digestBytes, List.mem_cons] at hb
    rcases hb with rfl | hb
    · rw [and_255_eq_mod]
      omega
    · exact ih _ b hb

theorem fromBytesBE_append (l : List Nat) (b : Nat) :
    fromBytesBE (l ++ [b]) = 256 * fromBytesBE l + b := by
  simp [fromBytesBE, List.foldl_append]

theorem fromBytesBE_digestBytes (crc k : Nat) :
    fromBytesBE (digestBytes crc k).reverse = crc % 2 ^ (8 * k) := by
  induction k generalizing crc with
  | zero => simp [digestBytes, fromBytesBE, Nat.mod_one]
  | succ k ih =>
    show fromBytesBE ((crc &&& 0xFF) :: digestBytes (crc >>> 8) k).reverse = _
    rw [List.reverse_cons, fromBytesBE_append, ih]
    rw [and_255_eq_mod, Nat.shiftRight_eq_div_pow]
    have h2 : 2 ^ (8 * (k + 1)) = 2 ^ 8 * 2 ^ (8 * k) := by
      rw [← pow_add]
      ring_nf
    rw [h2, Nat.mod_mul]
    norm_num
    omega

theorem Crc.digest_length {c : Crc} {w : Nat} (h : c.Inv w) : c.digest.length = w / 8 := by
  simp only [Crc.digest]
  rw [List.length_reverse, digestBytes_length, h.dsize_eq]

theorem Crc.digest_value {c : Crc} {w : Nat} (h : c.Inv w) (hdvd : 8 * (w / 8) = w) :
    fromBytesBE c.digest = c.crcValue := by
  simp only [Crc.digest]
  rw [fromBytesBE_digestBytes, h.dsize_eq, hdvd, Nat.mod_eq_of_lt h.value_lt]

/-- C5: for a validly constructed engine and any sequence of updates,
`digest()` returns exactly `ceil(w/8)` bytes whose big-endian value is
`currentValue`; in this embedding `digest` is a pure function of the
engine, so it changes no field. -/
theorem crcmod_C5 (poly w initCrc xorOut : Nat) (rev : Bool) (ds : List (List Nat))
    (h : verifyPoly poly = some w) :
    ((mkCrcRaw poly w initCrc rev xorOut).updates ds).digest.length = (w + 7) / 8 ∧
    (∀ b ∈ ((mkCrcRaw poly w initCrc rev xorOut).updates ds).digest, b < 256) ∧
    fromBytesBE ((mkCrcRaw poly w initCrc rev xorOut).updates ds).digest =
      ((mkCrcRaw poly w initCrc rev xorOut).updates ds).crcValue := by
  have hf := width_facts h
  have hi := Crc.updates_inv (mkCrcRaw_inv poly w initCrc xorOut rev) ds
  refine ⟨?_, ?_, Crc.digest_value hi hf.1⟩
  · rw [Crc.digest_length hi, hf.2.1]
  · intro b hb
    simp only [Crc.digest, List.mem_reverse] at hb
    exact digestBytes_lt _ _ b hb

/-- Witness for C5 at `poly = 0x107` after one update. -/
theorem crcmod_C5_witness :
    ((mkCrcRaw 263 8 0 true 0).updates [[1]]).digest.length = (8 + 7) / 8 ∧
    (∀ b ∈ ((mkCrcRaw 263 8 0 true 0).updates [[1]]).digest, b < 256) ∧
    fromBytesBE ((mkCrcRaw 263 8 0 true 0).updates [[1]]).digest =
      ((mkCrcRaw 263 8 0 true 0).updates [[1]]).crcValue :=
  crcmod_C5 263 8 0 0 true [[1]] rfl

/-! ## Reset -/

/-- C7: on any validly constructed engine, after any updates, `new()`
returns an engine with the same fixed parameters and table whose
`crcValue` is `initCrc XOR xorOut` (already masked to `width` bits), and
`new(seed)` additionally applies `update(seed)` to that engine. -/
theorem crcmod_C7 (poly w initCrc xorOut : Nat) (rev : Bool) (ds : List (List Nat))
    (seed : List Nat) (h : verifyPoly poly = some w) :
    (let c := (mkCrcRaw poly w initCrc rev xorOut).updates ds
     (c.new none).width = c.width ∧ (c.new none).poly = c.poly ∧
     (c.new none).reverse = c.reverse ∧ (c.new none).initCrc = c.initCrc ∧
     (c.new none).xorOut = c.xorOut ∧ (c.new none).table = c.table ∧
     (c.new none).crcValue = (c.initCrc ^^^ c.xorOut) % 2 ^ c.width ∧
     c.new (some seed) = (c.new none).update seed) := by
  intro c
  have hi : c.Inv w := Crc.updates_inv (mkCrcRaw_inv poly w initCrc xorOut rev) ds
  refine ⟨rfl, rfl, rfl, rfl, rfl, rfl, ?_, rfl⟩
  have hlt : c.initCrc ^^^ c.xorOut < 2 ^ c.width := by
    rw [hi.width_eq]
    exact Nat.xor_lt_two_pow hi.init_lt hi.xorOut_lt
  show c.initCrc ^^^ c.xorOut = (c.initCrc ^^^ c.xorOut) % 2 ^ c.width
  rw [Nat.mod_eq_of_lt hlt]

/-- Witness for C7 at `poly = 0x107` after one update, seed `[3]`. -/
theorem crcmod_C7_witness :
    (let c := (mkCrcRaw 263 8 0 true 0).updates [[1]]
     (c.new none).width = c.width ∧ (c.new none).poly = c.poly ∧
     (c.new none).reverse = c.reverse ∧ (c.new none).initCrc = c.initCrc ∧
     (c.new none).xorOut = c.xorOut ∧ (c.new none).table = c.table ∧
     (c.new none).crcValue = (c.initCrc ^^^ c.xorOut) % 2 ^ c.width ∧
     c.new (some [3]) = (c.new none).update [3]) :=
  crcmod_C7 263 8 0 0 true [[1]] [3] rfl

/-! ## Hexadecimal digest -/

theorem hexdigestChunks_eq (crc k : Nat) :
    hexdigestChunks crc k = (digestBytes crc k).map byteHex := by
  induction k generalizing crc with
  | zero => rfl
  | succ k ih => simp [hexdigestChunks, digestBytes, ih]

theorem Crc.hexdigest_eq (c : Crc) : c.hexdigest = (c.digest.map byteHex).flatten := by
  simp only [Crc.hexdigest, Crc.digest, hexdigestChunks_eq, List.map_reverse]

theorem hexVal_hexChar : ∀ k, k < 16 → hexVal (hexChar k) = k := by decide

theorem hexChar_mem_hexDigits : ∀ k, k < 16 → hexChar k ∈ hexDigits := by decide

theorem decodeHexPairs_flatten (l : List Nat) (h : ∀ b ∈ l, b < 256) :
    decodeHexPairs ((l.map byteHex).flatten) = l := by
  induction l with
  | nil => rfl
  | cons b bs ih =>
    have hb : b < 256 := h b (List.mem_cons_self b bs)
    show decodeHexPairs (hexChar (b / 16) :: hexChar (b % 16) :: (bs.map byteHex).flatten)
        = b :: bs
    rw [decodeHexPairs]
    rw [hexVal_hexChar _ (by omega), hexVal_hexChar _ (by omega)]
    rw [ih fun x hx => h x (List.mem_cons_of_mem b hx)]
    congr 1
    omega

theorem flatten_byteHex_length (l : List Nat) :
    ((l.map byteHex).flatten).length = 2 * l.length := by
  induction l with
  | nil => rfl
  | cons b bs ih =>
    show (byteHex b ++ (bs.map byteHex).flatten).length = 2 * (bs.length + 1)
    rw [List.length_append, ih, byteHex]
    simp
    omega

theorem mem_flatten_byteHex {l : List Nat} {ch : Char} (hb : ∀ b ∈ l, b < 256)
    (h : ch ∈ (l.map byteHex).flatten) : ch ∈ hexDigits := by
  induction l with
  | nil => simp at h
  | cons b bs ih =>
    have hb256 : b < 256 := hb b (List.mem_cons_self b bs)
    rw [show ((b :: bs).map byteHex).flatten = byteHex b ++ (bs.map byteHex).flatten
      from rfl] at h
    rcases List.mem_append.1 h with h | h
    · simp only [byteHex, List.mem_cons, List.not_mem_nil, or_false] at h
      rcases h with rfl | rfl
      · exact hexChar_mem_hexDigits _ (by omega)
      · exact hexChar_mem_hexDigits _ (by omega)
    · exact ih (fun x hx => hb x (List.mem_cons_of_mem b hx)) h

/-- C9: for a validly constructed engine after any updates, `hexdigest()`
has exactly `2*ceil(w/8)` characters, all uppercase hexadecimal digits,
and decoding it two characters per byte yields exactly `digest()`. -/
theorem crcmod_C9 (poly w initCrc xorOut : Nat) (rev : Bool) (ds : List (List Nat))
    (h : verifyPoly poly = some w) :
    (let c := (mkCrcRaw poly w initCrc rev xorOut).updates ds
     c.hexdigest.length = 2 * ((w + 7) / 8) ∧
     (∀ ch ∈ c.hexdigest, ch ∈ hexDigits) ∧
     decodeHexPairs c.hexdigest = c.digest) := by
  intro c
  have hf := width_facts h
  have hi : c.Inv w := Crc.updates_inv (mkCrcRaw_inv poly w initCrc xorOut rev) ds
  have hbytes : ∀ b ∈ c.digest, b < 256 := by
    intro b hbm
    simp only [Crc.digest, List.mem_reverse] at hbm
    exact digestBytes_lt _ _ b hbm
  refine ⟨?_, ?_, ?_⟩
  · rw [Crc.hexdigest_eq, flatten_byteHex_length, Crc.digest_length hi, hf.2.1]
  · intro ch hch
    rw [Crc.hexdigest_eq] at hch
    exact mem_flatten_byteHex hbytes hch
  · rw [Crc.hexdigest_eq, decodeHexPairs_flatten _ hbytes]

/-- Witness for C9 at `poly = 0x107` after one update. -/
theorem crcmod_C9_witness :
    (let c := (mkCrcRaw 263 8 0 true 0).updates [[1]]
     c.hexdigest.length = 2 * ((8 + 7) / 8) ∧
     (∀ ch ∈ c.hexdigest, ch ∈ hexDigits) ∧
     decodeHexPairs c.hexdigest = c.digest) :=
  crcmod_C9 263 8 0 0 true [[1]] rfl

/-! ## Table construction matches the spec wording -/

theorem and_two_pow_ne_zero_iff (c k : Nat) : c &&& (1 <<< k) ≠ 0 ↔ c.testBit k := by
  rw [Nat.one_shiftLeft, Nat.and_two_pow]
  cases h : c.testBit k <;> simp [Nat.two_pow_pos, Nat.pos_iff_ne_zero]

theorem bytecrcRound_eq_spec (poly n : Nat) (hn : 1 ≤ n) :
    bytecrcRound poly n = specFwdRound poly n := by
  funext crc
  have h1 : (crc &&& (1 <<< (n - 1)) ≠ 0) ↔ ((crc <<< 1).testBit n = true) := by
    rw [and_two_pow_ne_zero_iff, Nat.testBit_shiftLeft]
    simp [hn]
  simp only [bytecrcRound, specFwdRound]
  by_cases hb : (crc <<< 1).testBit n = true
  · rw [if_pos (h1.mpr hb), if_pos hb]
  · rw [if_neg fun hc => hb (h1.mp hc), if_neg hb]

theorem bytecrcRound_r_eq_spec (poly : Nat) :
    bytecrcRound_r poly = specRevRound poly := by
  funext crc
  have h1 : (crc &&& 1 ≠ 0) ↔ (crc % 2 = 1) := by
    rw [Nat.and_one_is_mod]
    omega
  simp only [bytecrcRound_r, specRevRound]
  by_cases hb : crc % 2 = 1
  · rw [if_pos (h1.mpr hb), if_pos hb]
  · rw [if_neg fun hc => hb (h1.mp hc), if_neg hb]

/-- C1: for every valid polynomial and width, the code's forward and
reversed tables (`_mkTable`, `_mkTable_r`) are exactly the 256-entry
tables described by the spec's wording of the per-byte step functions and
start values. -/
theorem crcmod_C1 (poly n : Nat) (hn : n ∈ widths) (h1 : 2 ^ n ≤ poly)
    (h2 : poly < 2 ^ (n + 1)) :
    mkTable poly n = specFwdTable poly n ∧ mkTable_r poly n = specRevTable poly n := by
  have hn1 : 1 ≤ n := by
    simp only [widths, List.mem_cons, List.not_mem_nil, or_false] at hn
    omega
  have hp : poly &&& (2 ^ n - 1) = poly % 2 ^ n := Nat.and_pow_two_sub_one_eq_mod poly n
  constructor
  · simp only [mkTable, specFwdTable]
    refine List.map_congr_left fun i _ => ?_
    simp only [bytecrc, hp, bytecrcRound_eq_spec (poly % 2 ^ n) n hn1,
      Nat.and_pow_two_sub_one_eq_mod]
  · simp only [mkTable_r, specRevTable]
    refine List.map_congr_left fun i _ => ?_
    simp only [bytecrc_r, hp, bytecrcRound_r_eq_spec,
      Nat.and_pow_two_sub_one_eq_mod]

/-- Witness for C1 at `poly = 0x107`, `n = 8`. -/
theorem crcmod_C1_witness :
    mkTable 263 8 = specFwdTable 263 8 ∧ mkTable_r 263 8 = specRevTable 263 8 :=
  crcmod_C1 263 8 (by decide) (by decide) (by decide)

/-! ## Forward versus reversed tables -/

set_option maxRecDepth 4000 in
/-- Counterexample for C8: `poly = 0x10000` is valid for width 16
(`2^16 ≤ poly < 2^17`), yet its forward and reversed tables are equal as
256-entry sequences (both are all-zero, since the stripped polynomial is
zero), refuting the claim that they always differ for widths above 8. -/
theorem crcmod_C8_counterexample :
    (2 ^ 16 ≤ 65536 ∧ 65536 < 2 ^ 17 ∧ (16 : Nat) ∈ widths) ∧
    mkTable 65536 16 = mkTable_r 65536 16 := by
  refine ⟨⟨by norm_num, by norm_num, by decide⟩, by decide⟩

set_option maxRecDepth 4000 in
/-- C8 (amended): the forward and reversed tables differ for the standard
polynomials of each width in {16, 24, 32, 64} — but not for every valid
polynomial of those widths — and for width 8 the forward and reversed
per-byte block-update algorithms coincide on width-8 states. -/
theorem crcmod_C8 :
    mkTable 0x11021 16 ≠ mkTable_r 0x11021 16 ∧
    mkTable 0x1864CFB 24 ≠ mkTable_r 0x1864CFB 24 ∧
    mkTable 0x104C11DB7 32 ≠ mkTable_r 0x104C11DB7 32 ∧
    mkTable 0x1000000000000001B 64 ≠ mkTable_r 0x1000000000000001B 64 ∧
    ∀ (table : List Nat) (crc b : Nat), crc < 2 ^ 8 → (∀ t ∈ table, t < 2 ^ 8) →
      fwdStep 8 table crc b = revStep table crc b := by
  refine ⟨by decide, by decide, by decide, by decide, ?_⟩
  intro table crc b hc ht
  have hcrc : crc &&& 0xFF = crc := by
    rw [and_255_eq_mod]
    omega
  have hsr : crc >>> 8 = 0 := by
    rw [Nat.shiftRight_eq_div_pow]
    exact Nat.div_eq_of_lt hc
  have ht' : table.getD (b ^^^ crc) 0 < 2 ^ 8 := getD_lt (by norm_num) ht _
  show (table.getD (b ^^^ crc >>> (8 - 8)) 0 ^^^ crc <<< 8) &&& (2 ^ 8 - 1)
      = table.getD (b ^^^ (crc &&& 0xFF)) 0 ^^^ crc >>> 8
  rw [hcrc, hsr, Nat.xor_zero, Nat.shiftRight_zero]
  rw [Nat.and_xor_distrib_right, Nat.and_pow_two_sub_one_of_lt_two_pow ht']
  have hsl : crc <<< 8 &&& (2 ^ 8 - 1) = 0 := by
    rw [Nat.and_pow_two_sub_one_eq_mod, Nat.shiftLeft_eq]
    exact Nat.mul_mod_left crc (2 ^ 8)
  rw [hsl, Nat.xor_zero]

/-- Witness for C8's width-8 coincidence part at a concrete state. -/
theorem crcmod_C8_witness :
    fwdStep 8 [7] 3 5 = revStep [7] 3 5 :=
  crcmod_C8.2.2.2.2 [7] 3 5 (by norm_num) (by simp)

/-! ## Table entry zero -/

theorem table_entry_zero (f : Nat → Nat) : ((List.range 256).map f).getD 0 0 = f 0 := by
  have h : 0 < ((List.range 256).map f).length := by simp
  rw [List.getD_eq_getElem?_getD, List.getElem?_eq_getElem h]
  simp

theorem bytecrc_zero (poly n : Nat) : bytecrc 0 poly n = 0 := by
  have hfix : bytecrcRound poly n 0 = 0 := by
    simp [bytecrcRound]
  simp only [bytecrc]
  rw [Function.iterate_fixed hfix]
  simp

theorem bytecrc_r_zero (poly n : Nat) : bytecrc_r 0 poly n = 0 := by
  have hfix : bytecrcRound_r poly 0 = 0 := by
    simp [bytecrcRound_r]
  simp only [bytecrc_r]
  rw [Function.iterate_fixed hfix]
  simp

/-- C10: for every valid polynomial and width, entry 0 of the lookup table
is 0, in both the forward and the reversed construction mode. -/
theorem crcmod_C10 (poly w : Nat) (hw : w ∈ widths) (h1 : 2 ^ w ≤ poly)
    (h2 : poly < 2 ^ (w + 1)) :
    (mkTable poly w).getD 0 0 = 0 ∧ (mkTable_r poly w).getD 0 0 = 0 := by
  constructor
  · simp only [mkTable]
    rw [table_entry_zero, Nat.zero_shiftLeft]
    exact bytecrc_zero _ _
  · simp only [mkTable_r]
    rw [table_entry_zero]
    exact bytecrc_r_zero _ _

/-- Witness for C10 at `poly = 0x107`, `w = 8`. -/
theorem crcmod_C10_witness :
    (mkTable 263 8).getD 0 0 = 0 ∧ (mkTable_r 263 8).getD 0 0 = 0 :=
  crcmod_C10 263 8 (by decide) (by decide) (by decide)

end Crcmod
